import Mathlib

/-!
# Verification of the Java dependency-analyser repository

A shallow embedding of the repository's core functions, together with
theorems settling the specification claims.

Embedded source files:
* `part02/src/dependency.rs` — the regex-based extractor's type
  normalizer (`normalize_type`, `EXCLUDED`);
* `part01/src/common/types.rs` — `ClassDepsReport` and its recursive
  flattening `get_dependencies`;
* `src/analyser/dependency_analyser_lib.rs` — the tree-sitter based
  extractor (`collect_all_classes`, `collect_file_imports`,
  `collect_class_dependencies`, `filter_dependencies`, `resolve_field`)
  and the three entry points (`get_class_dependencies`,
  `get_package_dependencies`, `get_project_dependencies`).

Modelling conventions:
* Rust `String`s are Lean `String`s; where character-list reasoning is
  needed the functions work on `List Char` (a `String` is its list of
  chars).
* Rust `Vec::sort` on `Vec<String>` sorts by the lexicographic order on
  strings; it is modelled by `List.insertionSort` with the decidable
  lexicographic relation `strLe` (for a total, antisymmetric order every
  sorting algorithm produces the same output, so the choice of algorithm
  is immaterial).  Rust `Vec::dedup` removes consecutive duplicates and
  is modelled by `dedupAdj`.
* tree-sitter syntax trees are modelled by the inductive `SNode`: each
  node carries its kind, its source text (`utf8_text`), its namedness,
  its ordered children, and its field-name table (`child_by_field_name`).
  The tree-sitter parser itself is an external library; parsing is taken
  as an oracle `parse : String → Option SNode` given to the entry points.
* The filesystem is an oracle `fs : String → FileOutcome` mapping paths
  to open/read outcomes, plus explicit directory listings.
* Rust panics (`expect`/`unwrap` failures) abort the process; a
  computation that can panic returns a `RunResult`, whose `panic`
  constructor carries the panic message, or an `Except String` whose
  `error` carries the message where only panics can occur.
-/

/-! ## Lexicographic order on strings (Rust's `Ord for String`) -/

/-- Strict lexicographic comparison of char lists.  Rust compares strings
by their UTF-8 bytes; for valid UTF-8 this coincides with lexicographic
comparison of the code points. -/
def chlt : List Char → List Char → Bool
  | [], [] => false
  | [], _ :: _ => true
  | _ :: _, [] => false
  | a :: as, b :: bs => if a < b then true else if b < a then false else chlt as bs

/-- `a <= b` in Rust's string order. -/
def strLeB (a b : String) : Bool := !(chlt b.data a.data)

/-- The ordering relation used to model `Vec::<String>::sort`. -/
def strLe (a b : String) : Prop := strLeB a b = true

instance : DecidableRel strLe := fun a b => by unfold strLe; infer_instance

theorem chlt_irrefl : ∀ l : List Char, chlt l l = false
  | [] => rfl
  | a :: as => by
    rw [chlt]
    simp [lt_irrefl, chlt_irrefl as]

theorem chlt_trans : ∀ {a b c : List Char},
    chlt a b = true → chlt b c = true → chlt a c = true
  | [], [], _, h1, _ => by simp [chlt] at h1
  | [], _ :: _, [], _, h2 => by simp [chlt] at h2
  | [], _ :: _, _ :: _, _, _ => by simp [chlt]
  | _ :: _, [], _, h1, _ => by simp [chlt] at h1
  | _ :: _, _ :: _, [], _, h2 => by simp [chlt] at h2
  | x :: as, y :: bs, z :: cs, h1, h2 => by
    rw [chlt] at h1 h2 ⊢
    rcases lt_trichotomy x y with hxy | hxy | hxy
    · rcases lt_trichotomy y z with hyz | hyz | hyz
      · simp [lt_trans hxy hyz]
      · subst hyz; simp [hxy]
      · simp [hyz, asymm hyz] at h2
    · subst hxy
      rcases lt_trichotomy x z with hxz | hxz | hxz
      · simp [hxz]
      · subst hxz
        simp [lt_irrefl] at h1 h2 ⊢
        exact chlt_trans h1 h2
      · simp [hxz, asymm hxz] at h2
    · simp [hxy, asymm hxy] at h1

theorem chlt_connex : ∀ {a b : List Char},
    chlt a b = false → chlt b a = false → a = b
  | [], [], _, _ => rfl
  | [], _ :: _, h1, _ => by simp [chlt] at h1
  | _ :: _, [], _, h2 => by simp [chlt] at h2
  | x :: as, y :: bs, h1, h2 => by
    rw [chlt] at h1 h2
    rcases lt_trichotomy x y with hxy | hxy | hxy
    · simp [hxy] at h1
    · subst hxy
      simp [lt_irrefl] at h1 h2
      rw [chlt_connex h1 h2]
    · simp [hxy] at h2

theorem chlt_asymm {a b : List Char} (h : chlt a b = true) : chlt b a = false := by
  by_contra hc
  have h2 : chlt b a = true := by
    cases hcb : chlt b a with
    | true => rfl
    | false => exact absurd hcb hc
  have := chlt_trans h h2
  rw [chlt_irrefl] at this
  exact Bool.false_ne_true this

instance : IsTotal String strLe := by
  constructor
  intro a b
  unfold strLe strLeB
  cases h : chlt b.data a.data with
  | false => left; rfl
  | true => right; rw [chlt_asymm h]; rfl

instance : IsTrans String strLe := by
  constructor
  intro a b c h1 h2
  unfold strLe strLeB at h1 h2 ⊢
  simp only [Bool.not_eq_true'] at h1 h2 ⊢
  by_contra hc
  have hca : chlt c.data a.data = true := by
    cases h : chlt c.data a.data with
    | true => rfl
    | false => exact absurd h hc
  cases hab : chlt a.data b.data with
  | false =>
    have heq := chlt_connex hab h1
    rw [heq] at hca
    rw [hca] at h2
    cases h2
  | true =>
    have := chlt_trans hca hab
    rw [this] at h2
    cases h2

instance : IsAntisymm String strLe := by
  constructor
  intro a b h1 h2
  unfold strLe strLeB at h1 h2
  simp only [Bool.not_eq_true'] at h1 h2
  have : a.data = b.data := chlt_connex h2 h1
  exact congrArg String.mk this

instance : IsRefl String strLe := by
  constructor
  intro a
  unfold strLe strLeB
  rw [chlt_irrefl]
  rfl

/-- Model of `Vec::<String>::sort`. -/
def sortStrings (l : List String) : List String := List.insertionSort strLe l

/-- Model of `Vec::<String>::dedup`: removes consecutive duplicates. -/
def dedupAdj : List String → List String
  | [] => []
  | [a] => [a]
  | a :: b :: rest => if a = b then dedupAdj (b :: rest) else a :: dedupAdj (b :: rest)

theorem mem_dedupAdj {x : String} : ∀ {l : List String}, x ∈ dedupAdj l ↔ x ∈ l
  | [] => by simp [dedupAdj]
  | [a] => by simp [dedupAdj]
  | a :: b :: rest => by
    rw [dedupAdj]
    split
    · rename_i hab
      rw [mem_dedupAdj (l := b :: rest)]
      subst hab
      simp
    · simp [mem_dedupAdj (l := b :: rest)]

theorem mem_sortStrings {x : String} {l : List String} : x ∈ sortStrings l ↔ x ∈ l :=
  (List.perm_insertionSort strLe l).mem_iff

theorem sorted_sortStrings (l : List String) : List.Sorted strLe (sortStrings l) :=
  List.sorted_insertionSort strLe l

theorem pairwise_dedupAdj : ∀ {l : List String}, List.Sorted strLe l →
    List.Pairwise (fun a b => strLe a b ∧ a ≠ b) (dedupAdj l)
  | [], _ => by simp [dedupAdj]
  | [a], _ => by simp [dedupAdj]
  | a :: b :: rest, h => by
    rw [dedupAdj]
    have htail : List.Sorted strLe (b :: rest) := h.of_cons
    split
    · exact pairwise_dedupAdj htail
    · rename_i hab
      refine List.Pairwise.cons ?_ (pairwise_dedupAdj htail)
      intro y hy
      have hyb : y ∈ b :: rest := mem_dedupAdj.mp hy
      have hle_ay : strLe a y := (List.pairwise_cons.mp h).1 y hyb
      have hle_by : strLe b y := by
        rcases List.mem_cons.mp hyb with rfl | hmem
        · exact refl y
        · exact (List.pairwise_cons.mp htail).1 y hmem
      refine ⟨hle_ay, ?_⟩
      rintro rfl
      have hle_ab : strLe a b := (List.pairwise_cons.mp h).1 b (by simp)
      exact hab (antisymm hle_ab hle_by)

theorem sorted_dedupAdj {l : List String} (h : List.Sorted strLe l) :
    List.Sorted strLe (dedupAdj l) :=
  (pairwise_dedupAdj h).imp (fun hab => hab.1)

theorem nodup_dedupAdj {l : List String} (h : List.Sorted strLe l) :
    (dedupAdj l).Nodup :=
  (pairwise_dedupAdj h).imp (fun hab => hab.2)

/-- The canonical "sorted and deduplicated" form of a dependency list:
`deps.sort(); deps.dedup();` in the source. -/
def sortDedup (l : List String) : List String := dedupAdj (sortStrings l)

theorem mem_sortDedup {x : String} {l : List String} : x ∈ sortDedup l ↔ x ∈ l := by
  unfold sortDedup
  rw [mem_dedupAdj, mem_sortStrings]

theorem sorted_sortDedup (l : List String) : List.Sorted strLe (sortDedup l) :=
  sorted_dedupAdj (sorted_sortStrings l)

theorem nodup_sortDedup (l : List String) : (sortDedup l).Nodup :=
  nodup_dedupAdj (sorted_sortStrings l)

/-- Two sorted, duplicate-free lists with the same members are equal. -/
theorem sortedNodup_ext {l₁ l₂ : List String}
    (hs₁ : List.Sorted strLe l₁) (hs₂ : List.Sorted strLe l₂)
    (hn₁ : l₁.Nodup) (hn₂ : l₂.Nodup)
    (hmem : ∀ x, x ∈ l₁ ↔ x ∈ l₂) : l₁ = l₂ :=
  List.eq_of_perm_of_sorted ((List.perm_ext_iff_of_nodup hn₁ hn₂).mpr hmem) hs₁ hs₂

/-! ## part02/src/dependency.rs — the type normalizer -/

/-- The exclusion set of `dependency.rs` (`EXCLUDED`): Java primitives and
keywords that a naive token scan might mistake for a type. -/
def EXCLUDED : List String := [
  "int", "long", "short", "byte", "char", "float", "double", "boolean", "void",
  "new", "return", "public", "protected", "private", "static", "final", "abstract",
  "if", "else", "for", "while", "switch", "case", "default", "break", "continue",
  "try", "catch", "finally", "throw", "throws", "synchronized"]

/-- `raw.split('<').next().unwrap_or(raw)`: the prefix of the string up to
(and excluding) the first `<`. -/
def beforeLt : List Char → List Char
  | [] => []
  | c :: cs => if c = '<' then [] else c :: beforeLt cs

/-- Helper for `trim_end_matches("[]")`, working on the reversed list:
repeatedly strips a leading `']', '['` pair. -/
def stripArrAux : List Char → List Char
  | c₁ :: c₂ :: rest => if c₁ = ']' ∧ c₂ = '[' then stripArrAux rest else c₁ :: c₂ :: rest
  | l => l

/-- `s.trim_end_matches("[]")`: strips every trailing `[]` suffix. -/
def trimEndArr (l : List Char) : List Char := (stripArrAux l.reverse).reverse

/-- `s.trim()`: strips leading and trailing whitespace. -/
def trimWs (l : List Char) : List Char :=
  ((l.dropWhile Char.isWhitespace).reverse.dropWhile Char.isWhitespace).reverse

/-- `normalize_type` of `dependency.rs`: strip generics, strip trailing
array markers, trim whitespace; reject the empty string and members of
`EXCLUDED`. -/
def normalize_type (raw : String) : Option String :=
  let without_generics := beforeLt raw.data
  let without_array := trimEndArr without_generics
  let ty := trimWs without_array
  if ty.isEmpty || EXCLUDED.contains (String.mk ty) then none
  else some (String.mk ty)

/-- **C2** — The normalizer's contract on its documented test vectors:
`normalize("Foo<Bar>") = normalize("Foo[]") = normalize("Foo") =
normalize("  Foo  ") = some "Foo"`, while `normalize("int")` and
`normalize("")` are `none`. -/
theorem c2_normalize_examples :
    normalize_type "Foo<Bar>" = some "Foo" ∧
    normalize_type "Foo[]" = some "Foo" ∧
    normalize_type "Foo" = some "Foo" ∧
    normalize_type "  Foo  " = some "Foo" ∧
    normalize_type "int" = none ∧
    normalize_type "" = none := by
  refine ⟨?_, ?_, ?_, ?_, ?_, ?_⟩ <;> decide

/-- Whether a char list ends with the two characters `[]`. -/
def endsArr (l : List Char) : Bool :=
  match l.reverse with
  | c₁ :: c₂ :: _ => c₁ == ']' && c₂ == '['
  | _ => false

/-- **C10 counterexample** — `normalize` is not idempotent on its accepted
outputs: `normalize "Foo[] " = some "Foo[]"` (the trailing space protects
the array marker from `trim_end_matches`, and `trim` then exposes it),
but `normalize "Foo[]" = some "Foo" ≠ some "Foo[]"`. -/
theorem c10_normalize_not_idempotent :
    normalize_type "Foo[] " = some "Foo[]" ∧
    normalize_type "Foo[]" = some "Foo" ∧
    ("Foo" : String) ≠ "Foo[]" := by
  refine ⟨?_, ?_, ?_⟩ <;> decide

theorem not_lt_mem_beforeLt : ∀ {l : List Char}, '<' ∉ beforeLt l
  | [] => by simp [beforeLt]
  | c :: cs => by
    rw [beforeLt]
    split
    · simp
    · rename_i hc
      simp only [List.mem_cons, not_or]
      exact ⟨fun h => hc h.symm, not_lt_mem_beforeLt⟩

theorem beforeLt_eq_self : ∀ {l : List Char}, '<' ∉ l → beforeLt l = l
  | [], _ => rfl
  | c :: cs, h => by
    rw [beforeLt]
    rw [List.mem_cons, not_or] at h
    rw [if_neg (fun hc => h.1 hc.symm), beforeLt_eq_self h.2]

theorem mem_stripArrAux : ∀ {x : Char} {l : List Char}, x ∈ stripArrAux l → x ∈ l
  | _, [], h => by simpa [stripArrAux] using h
  | _, [c], h => by simpa [stripArrAux] using h
  | x, c₁ :: c₂ :: rest, h => by
    rw [stripArrAux] at h
    split at h
    · have := mem_stripArrAux h
      simp [this]
    · exact h

theorem stripArrAux_eq_self : ∀ {l : List Char},
    (match l with | c₁ :: c₂ :: _ => ¬(c₁ = ']' ∧ c₂ = '[') | _ => True) →
    stripArrAux l = l
  | [], _ => rfl
  | [_], _ => rfl
  | _ :: _ :: _, h => by
    rw [stripArrAux, if_neg h]

theorem mem_trimEndArr {x : Char} {l : List Char} (h : x ∈ trimEndArr l) : x ∈ l := by
  unfold trimEndArr at h
  rw [List.mem_reverse] at h
  exact List.mem_reverse.mp (mem_stripArrAux h)

theorem mem_dropWhile {α : Type} {p : α → Bool} : ∀ {x : α} {l : List α},
    x ∈ l.dropWhile p → x ∈ l
  | _, [], h => by simpa [List.dropWhile] using h
  | x, c :: cs, h => by
    rw [List.dropWhile] at h
    split at h
    · exact List.mem_cons_of_mem c (mem_dropWhile h)
    · exact h

theorem mem_trimWs {x : Char} {l : List Char} (h : x ∈ trimWs l) : x ∈ l := by
  unfold trimWs at h
  rw [List.mem_reverse] at h
  have h2 := mem_dropWhile h
  rw [List.mem_reverse] at h2
  exact mem_dropWhile h2

theorem head_dropWhile_false {α : Type} (p : α → Bool) : ∀ {l : List α} {c : α},
    (l.dropWhile p).head? = some c → p c = false
  | [], c => by simp [List.dropWhile]
  | a :: as, c => by
    rw [List.dropWhile]
    cases h : p a with
    | true => simpa using head_dropWhile_false p (l := as)
    | false => simp; rintro rfl; exact h

theorem dropWhile_eq_self_of_head {α : Type} {p : α → Bool} : ∀ {l : List α},
    (∀ c, l.head? = some c → p c = false) → l.dropWhile p = l
  | [], _ => rfl
  | a :: as, h => by
    rw [List.dropWhile, h a rfl]

theorem head_append_of_ne_nil {α : Type} : ∀ {l₁ l₂ : List α}, l₁ ≠ [] →
    (l₁ ++ l₂).head? = l₁.head?
  | [], _, h => absurd rfl h
  | a :: as, l₂, _ => rfl

/-- The head of `trimWs l` (if any) is not whitespace. -/
theorem trimWs_head {l : List Char} {c : Char} (h : (trimWs l).head? = some c) :
    Char.isWhitespace c = false := by
  unfold trimWs at h
  obtain ⟨t, ht⟩ :=
    List.dropWhile_suffix (l := (l.dropWhile Char.isWhitespace).reverse) Char.isWhitespace
  cases hbe : (l.dropWhile Char.isWhitespace).reverse.dropWhile Char.isWhitespace with
  | nil => rw [hbe] at h; simp at h
  | cons x xs =>
    rw [hbe] at ht h
    have haeq : l.dropWhile Char.isWhitespace = (x :: xs).reverse ++ t.reverse := by
      have hrev := congrArg List.reverse ht
      simpa using hrev.symm
    have hh : (l.dropWhile Char.isWhitespace).head? = some c := by
      rw [haeq, head_append_of_ne_nil (by simp), h]
    exact head_dropWhile_false Char.isWhitespace hh

/-- The last element of `trimWs l` (seen through `reverse`) is not
whitespace. -/
theorem trimWs_last {l : List Char} {c : Char} (h : (trimWs l).reverse.head? = some c) :
    Char.isWhitespace c = false := by
  unfold trimWs at h
  rw [List.reverse_reverse] at h
  exact head_dropWhile_false Char.isWhitespace h

/-- A list whose first and last elements are not whitespace is unchanged
by `trimWs`. -/
theorem trimWs_eq_self {l : List Char}
    (h1 : ∀ c, l.head? = some c → Char.isWhitespace c = false)
    (h2 : ∀ c, l.reverse.head? = some c → Char.isWhitespace c = false) :
    trimWs l = l := by
  unfold trimWs
  rw [dropWhile_eq_self_of_head h1, dropWhile_eq_self_of_head h2, List.reverse_reverse]

/-- `trimWs` is idempotent. -/
theorem trimWs_idem (l : List Char) : trimWs (trimWs l) = trimWs l :=
  trimWs_eq_self (fun _ h => trimWs_head h) (fun _ h => trimWs_last h)

/-- **C10 (amended)** — `normalize` is idempotent on every accepted output
that does not end in the array marker `[]`: if `normalize s = some t` and
`t` does not end with `[]`, then `normalize t = some t`.  (Outputs ending
in `[]` arise only when whitespace follows the marker in the input, as in
the counterexample `"Foo[] "`.) -/
theorem c10_normalize_idempotent_amended (s t : String)
    (h : normalize_type s = some t) (harr : endsArr t.data = false) :
    normalize_type t = some t := by
  unfold normalize_type at h
  set ty := trimWs (trimEndArr (beforeLt s.data)) with hty
  by_cases hguard : (ty.isEmpty || EXCLUDED.contains (String.mk ty)) = true
  · rw [if_pos hguard] at h; cases h
  · rw [if_neg hguard] at h
    have htd : t = String.mk ty := by
      injection h with h'
      exact h'.symm
    have htdata : t.data = ty := by rw [htd]
    -- the pipeline fixes `ty`
    have hlt : '<' ∉ ty := fun hm =>
      not_lt_mem_beforeLt (mem_trimEndArr (mem_trimWs (hty ▸ hm)))
    have hstep1 : beforeLt ty = ty := beforeLt_eq_self hlt
    have hstep2 : trimEndArr ty = ty := by
      unfold trimEndArr
      rw [stripArrAux_eq_self, List.reverse_reverse]
      rw [htdata] at harr
      unfold endsArr at harr
      revert harr
      cases ty.reverse with
      | nil => simp
      | cons c₁ tl =>
        cases tl with
        | nil => simp
        | cons c₂ tl₂ =>
          intro harr hc
          obtain ⟨rfl, rfl⟩ := hc
          simp at harr
    have hstep3 : trimWs ty = ty := hty ▸ trimWs_idem (trimEndArr (beforeLt s.data))
    unfold normalize_type
    simp only [htdata, hstep1, hstep2, hstep3]
    rw [if_neg hguard, htd]

/-- **C10 witness** — the amended idempotence theorem applied at
`s = "Foo<Bar>"`, whose accepted output `"Foo"` does not end in `[]`. -/
theorem c10_witness : normalize_type "Foo" = some "Foo" := by
  have h1 : normalize_type "Foo<Bar>" = some "Foo" := by decide
  have h2 : endsArr ("Foo" : String).data = false := by decide
  exact c10_normalize_idempotent_amended "Foo<Bar>" "Foo" h1 h2

/-! ## part01/src/common/types.rs — report types and flattening -/

/-- `ClassDepsReport` of `common/types.rs`: a class name, its dependency
strings, and the reports of its directly nested classes. -/
inductive ClassDepsReport where
  | mk (class_name : String) (class_deps : List String) (nested_classes : List ClassDepsReport)

def ClassDepsReport.class_name : ClassDepsReport → String
  | .mk n _ _ => n

def ClassDepsReport.class_deps : ClassDepsReport → List String
  | .mk _ d _ => d

def ClassDepsReport.nested_classes : ClassDepsReport → List ClassDepsReport
  | .mk _ _ cs => cs

mutual
/-- `ClassDepsReport::get_dependencies`: the report's own `class_deps`
followed by the flattened dependencies of every nested class in order,
then sorted and deduplicated. -/
def ClassDepsReport.get_dependencies : ClassDepsReport → List String
  | .mk _ deps nested => sortDedup (deps ++ nestedDepsList nested)

/-- The `for nes_class in self.nested_classes` loop: appends each nested
class's flattened dependencies in order. -/
def nestedDepsList : List ClassDepsReport → List String
  | [] => []
  | c :: cs => c.get_dependencies ++ nestedDepsList cs
end

theorem sorted_get_dependencies (r : ClassDepsReport) :
    List.Sorted strLe r.get_dependencies := by
  cases r with
  | mk n deps nested =>
    rw [ClassDepsReport.get_dependencies]
    exact sorted_sortDedup _

theorem nodup_get_dependencies (r : ClassDepsReport) :
    r.get_dependencies.Nodup := by
  cases r with
  | mk n deps nested =>
    rw [ClassDepsReport.get_dependencies]
    exact nodup_sortDedup _

/-- **C7** — Flattening an already-flat report (no nested classes) yields
exactly its own `class_deps` sorted and deduplicated: the result is the
sort-dedup normal form of `class_deps`, it is sorted, duplicate-free, and
has exactly the members of `class_deps`. -/
theorem c7_flatten_flat (r : ClassDepsReport) (h : r.nested_classes = []) :
    r.get_dependencies = sortDedup r.class_deps ∧
    List.Sorted strLe r.get_dependencies ∧
    r.get_dependencies.Nodup ∧
    (∀ x, x ∈ r.get_dependencies ↔ x ∈ r.class_deps) := by
  cases r with
  | mk n deps nested =>
    rw [ClassDepsReport.nested_classes] at h
    subst h
    rw [ClassDepsReport.get_dependencies, ClassDepsReport.class_deps]
    rw [nestedDepsList, List.append_nil]
    refine ⟨rfl, sorted_sortDedup _, nodup_sortDedup _, fun x => mem_sortDedup⟩

/-- **C7 witness** — the flat-flattening theorem applied to the concrete
report `{class_name := "A", class_deps := ["b", "a", "b"]}`. -/
theorem c7_witness :
    (ClassDepsReport.mk "A" ["b", "a", "b"] []).nested_classes = [] ∧
    (ClassDepsReport.mk "A" ["b", "a", "b"] []).get_dependencies =
      sortDedup ["b", "a", "b"] :=
  ⟨rfl, (c7_flatten_flat (ClassDepsReport.mk "A" ["b", "a", "b"] []) rfl).1⟩

mutual
/-- Two reports are related when they have the same name and dependency
list and their nested-class lists are related by a permutation applied
recursively at any depth. -/
inductive ReportPerm : ClassDepsReport → ClassDepsReport → Prop where
  | mk : ∀ (n : String) (d : List String) (cs cs' : List ClassDepsReport),
      NestedPerm cs cs' → ReportPerm (.mk n d cs) (.mk n d cs')

/-- Permutation of report lists, with the elements themselves related by
`ReportPerm` (the pointwise-recursive generalization of `List.Perm`). -/
inductive NestedPerm : List ClassDepsReport → List ClassDepsReport → Prop where
  | nil : NestedPerm [] []
  | cons : ∀ {a b : ClassDepsReport} {l₁ l₂ : List ClassDepsReport},
      ReportPerm a b → NestedPerm l₁ l₂ → NestedPerm (a :: l₁) (b :: l₂)
  | swap : ∀ {a a' c c' : ClassDepsReport} {l₁ l₂ : List ClassDepsReport},
      ReportPerm a a' → ReportPerm c c' → NestedPerm l₁ l₂ →
      NestedPerm (a :: c :: l₁) (c' :: a' :: l₂)
  | trans : ∀ {l₁ l₂ l₃ : List ClassDepsReport},
      NestedPerm l₁ l₂ → NestedPerm l₂ l₃ → NestedPerm l₁ l₃
end

theorem reportPerm_mem {r r' : ClassDepsReport} (h : ReportPerm r r') :
    ∀ x, x ∈ r.get_dependencies ↔ x ∈ r'.get_dependencies := by
  refine @ReportPerm.rec
    (fun r r' _ => ∀ x, x ∈ r.get_dependencies ↔ x ∈ r'.get_dependencies)
    (fun cs cs' _ => ∀ x, x ∈ nestedDepsList cs ↔ x ∈ nestedDepsList cs')
    ?_ ?_ ?_ ?_ ?_ r r' h
  · intro n d cs cs' _ ih x
    rw [ClassDepsReport.get_dependencies, ClassDepsReport.get_dependencies]
    rw [mem_sortDedup, mem_sortDedup, List.mem_append, List.mem_append, ih x]
  · intro x
    exact Iff.rfl
  · intro a b l₁ l₂ _ _ ih₁ ih₂ x
    rw [nestedDepsList, nestedDepsList, List.mem_append, List.mem_append, ih₁ x, ih₂ x]
  · intro a a' c c' l₁ l₂ _ _ _ iha ihc ih x
    rw [nestedDepsList, nestedDepsList, nestedDepsList, nestedDepsList]
    simp only [List.mem_append]
    rw [iha x, ihc x, ih x]
    tauto
  · intro l₁ l₂ l₃ _ _ ih₁ ih₂ x
    exact (ih₁ x).trans (ih₂ x)

/-- **C8** — Flattening is order-independent: permuting the nested-class
lists (recursively, at any depth) does not change `get_dependencies`. -/
theorem c8_flatten_order_independent (r r' : ClassDepsReport)
    (h : ReportPerm r r') : r.get_dependencies = r'.get_dependencies :=
  sortedNodup_ext (sorted_get_dependencies r) (sorted_get_dependencies r')
    (nodup_get_dependencies r) (nodup_get_dependencies r') (reportPerm_mem h)

/-- **C8 witness** — applied to a concrete report whose two nested classes
are swapped. -/
theorem c8_witness :
    (ClassDepsReport.mk "A" ["x"]
      [.mk "B" ["b"] [], .mk "C" ["c"] []]).get_dependencies =
    (ClassDepsReport.mk "A" ["x"]
      [.mk "C" ["c"] [], .mk "B" ["b"] []]).get_dependencies :=
  c8_flatten_order_independent _ _
    (ReportPerm.mk "A" ["x"] _ _
      (NestedPerm.swap
        (ReportPerm.mk "B" ["b"] [] [] NestedPerm.nil)
        (ReportPerm.mk "C" ["c"] [] [] NestedPerm.nil)
        NestedPerm.nil))

/-! ## src/analyser/dependency_analyser_lib.rs — the tree-based extractor

tree-sitter `Node`s are modelled by `SNode`.  A node stores its kind tag,
the source text of its span (`utf8_text`), whether it is a *named* node,
its ordered child list (`child(i)` / `child_count`), and its table of
field-tagged children (`child_by_field_name`). -/

inductive SNode where
  | mk (kind : String) (text : String) (named : Bool) (children : List SNode)
       (fields : List (String × SNode))

def SNode.kind : SNode → String
  | .mk k _ _ _ _ => k

def SNode.text : SNode → String
  | .mk _ t _ _ _ => t

def SNode.named : SNode → Bool
  | .mk _ _ nm _ _ => nm

def SNode.children : SNode → List SNode
  | .mk _ _ _ cs _ => cs

def SNode.fields : SNode → List (String × SNode)
  | .mk _ _ _ _ fs => fs

/-- `named_child(0..named_child_count)`: the named children in order. -/
def SNode.namedChildren (n : SNode) : List SNode := n.children.filter SNode.named

/-- `child_by_field_name`. -/
def SNode.childByFieldName (n : SNode) (f : String) : Option SNode :=
  (n.fields.find? (fun p => p.1 == f)).map (fun p => p.2)

/-- `resolve_field`: follows a chain of field names, failing if any hop is
missing. -/
def resolve_field : SNode → List String → Except String SNode
  | node, [] => .ok node
  | node, f :: rest =>
    match node.childByFieldName f with
    | some n => resolve_field n rest
    | none => .error "Some of the fields name are wrong!"

/-- The string pushed for one named child of the file root by
`collect_file_imports`: for an `import_declaration` with a first named
child, its text, plus `.*` when the second named child is an `asterisk`,
prefixed with `static ` when a `static` field is present. -/
def importString (child : SNode) : Option String :=
  if child.kind = "import_declaration" then
    match child.namedChildren[0]? with
    | some path_node =>
      let path := path_node.text
      let path := if (child.namedChildren[1]?.map SNode.kind).getD "" = "asterisk"
                  then path ++ ".*" else path
      let path := if (child.childByFieldName "static").isSome
                  then "static " ++ path else path
      some path
    | none => none
  else none

/-- `collect_file_imports`: one pass over the named children of the file
root, pushing `importString` for each import declaration. -/
def collect_file_imports (root : SNode) : List String :=
  root.namedChildren.filterMap importString

/-- The `resolve_field(nd, ["declarator", "value", "type"])` lookup: its
text when the chain resolves, nothing otherwise (the `Err` case pushes
nothing). -/
def declaratorChainDep (nd : SNode) : List String :=
  match resolve_field nd ["declarator", "value", "type"] with
  | .ok x => [x.text]
  | .error _ => []

/-- The `if let Some(t) = nd.child_by_field_name("type")` block: the
declarator-chain text (when it resolves) followed by the type field's own
text. -/
def typeFieldDeps (nd : SNode) : List String :=
  match nd.childByFieldName "type" with
  | some t => declaratorChainDep nd ++ [t.text]
  | none => []

/-- Formal-parameter loop of the `method_declaration` branch: for each
`formal_parameter` child with a `type` field, the declarator chain of the
*type node* followed by the type text. -/
def paramDeps : List SNode → List String
  | [] => []
  | c :: rest =>
    (if c.kind = "formal_parameter" then
      match c.childByFieldName "type" with
      | some t => declaratorChainDep t ++ [t.text]
      | none => []
     else []) ++ paramDeps rest

/-- Object-creation scan inside a `method_invocation`'s children. -/
def objCreationDeps : List SNode → List String
  | [] => []
  | oc :: rest =>
    (if oc.kind = "object_creation_expression" then typeFieldDeps oc else []) ++
    objCreationDeps rest

/-- Children of an `expression_statement`: `method_invocation` nodes are
scanned for object creations. -/
def exprStmtDeps : List SNode → List String
  | [] => []
  | e :: rest =>
    (if e.kind = "method_invocation" then objCreationDeps e.children else []) ++
    exprStmtDeps rest

/-- Statement loop over a method body's children. -/
def bodyStmtDeps : List SNode → List String
  | [] => []
  | s :: rest =>
    (if s.kind = "local_variable_declaration" ∨ s.kind = "return_statement" then
       typeFieldDeps s
     else if s.kind = "expression_statement" then exprStmtDeps s.children
     else []) ++ bodyStmtDeps rest

/-- The `method_declaration` branch: return type, formal parameters, and
the method body's statements. -/
def methodDeps (nd : SNode) : List String :=
  typeFieldDeps nd ++
  (match nd.childByFieldName "parameters" with
   | some p => paramDeps p.children
   | none => []) ++
  (match nd.childByFieldName "body" with
   | some meth_body => bodyStmtDeps meth_body.children
   | none => [])

/-- The loop over all children of the class body in
`collect_class_dependencies`. -/
def classBodyDeps : List SNode → List String
  | [] => []
  | nd :: rest =>
    (if nd.kind = "field_declaration" ∨ nd.kind = "constructor_declaration" ∨
        nd.kind = "object_creation_expression" then typeFieldDeps nd
     else if nd.kind = "method_declaration" then methodDeps nd
     else []) ++ classBodyDeps rest

/-- `collect_class_dependencies`: superclass, implemented interfaces, and
the class body's members, sorted and deduplicated.  The `error` case
models the `expect("no body")` panic. -/
def collect_class_dependencies (class_node : SNode) : Except String (List String) :=
  let deps :=
    (match class_node.childByFieldName "superclass" with
     | some superc => [((superc.childByFieldName "name").getD superc).text]
     | none => []) ++
    (match class_node.childByFieldName "super_interfaces" with
     | some interfaces => interfaces.namedChildren.map SNode.text
     | none => [])
  match class_node.childByFieldName "body" with
  | none => .error "no body"
  | some cursor => .ok (dedupAdj (sortStrings (deps ++ classBodyDeps cursor.children)))

/-- The fixed primitive-exclusion list of `filter_dependencies`. -/
def prims : List String :=
  ["byte", "short", "int", "long", "float", "double", "boolean", "char", "void"]

/-- `filter_dependencies`: drops the nine primitive type names. -/
def filter_dependencies (dependencies : List String) : List String :=
  dependencies.filter (fun ty => !(prims.contains ty))

theorem sizeOf_filter_le (p : SNode → Bool) (l : List SNode) :
    sizeOf (l.filter p) ≤ sizeOf l := by
  induction l with
  | nil => simp
  | cons c cs ih =>
    simp only [List.filter]
    cases p c <;> simp <;> omega

theorem sizeOf_childByFieldName {n c : SNode} {f : String}
    (h : n.childByFieldName f = some c) : sizeOf c < sizeOf n := by
  unfold SNode.childByFieldName at h
  cases hf : n.fields.find? (fun p => p.1 == f) with
  | none => rw [hf] at h; cases h
  | some p =>
    rw [hf] at h
    simp only [Option.map_some', Option.some.injEq] at h
    have hm := List.mem_of_find?_eq_some hf
    have h1 : sizeOf p < sizeOf n.fields := List.sizeOf_lt_of_mem hm
    subst h
    cases n with
    | mk k t nm cs fs =>
      simp only [SNode.fields] at h1
      cases p with
      | mk a b =>
        simp only [Prod.mk.sizeOf_spec] at h1
        simp
        omega

theorem sizeOf_namedChildren_lt (n : SNode) : sizeOf n.namedChildren < sizeOf n := by
  have h := sizeOf_filter_le SNode.named n.children
  cases n with
  | mk k t nm cs fs =>
    simp only [SNode.namedChildren, SNode.children] at h ⊢
    simp
    omega

/-- The loop body of `collect_all_classes` over the named children of
`node`: builds one `ClassDepsReport` per `class_declaration` child,
recursing into the class body for nested classes.  `error` models the
panics (`class_declaration without name`, `no body`). -/
def collectGo (node : SNode) (children : List SNode) :
    Except String (List ClassDepsReport) :=
  match children with
  | [] => .ok []
  | child :: rest =>
    if child.kind = "class_declaration" then
      match child.childByFieldName "name" with
      | none => .error "class_declaration without name"
      | some name_node =>
        let class_name := name_node.text
        let nestedRes : Except String (List ClassDepsReport) :=
          match h : child.childByFieldName "body" with
          | some body => collectGo body body.namedChildren
          | none => .ok []
        match nestedRes with
        | .error e => .error e
        | .ok nested =>
          let file_dependencies := collect_file_imports node
          match collect_class_dependencies child with
          | .error e => .error e
          | .ok raw_class_dependencies =>
            let class_dependencies := filter_dependencies raw_class_dependencies
            match collectGo node rest with
            | .error e => .error e
            | .ok more =>
              .ok (.mk class_name (file_dependencies ++ class_dependencies) nested :: more)
    else collectGo node rest
termination_by sizeOf children
decreasing_by
  · have h1 := sizeOf_childByFieldName h
    have h2 := sizeOf_namedChildren_lt body
    simp
    omega
  · simp
  · simp

/-- `collect_all_classes`: entered at a file root (or a class body when
recursing), iterating its named children. -/
def collect_all_classes (node : SNode) : Except String (List ClassDepsReport) :=
  collectGo node node.namedChildren

/-! ### The end-to-end scenario-B tree

The tree-sitter parse of `import java.util.List; class C { List<String>
items; }`, as the extractor observes it: the root's named children are
the import declaration and the class declaration; the class carries the
`name` and `body` fields; the field declaration carries a `type` field (the
`generic_type` node whose text is `List<String>`) and a `declarator` field
(a `variable_declarator` with no `value`, since there is no initializer). -/

def scenarioBTypeNode : SNode := .mk "generic_type" "List<String>" true [] []

def scenarioBDeclarator : SNode := .mk "variable_declarator" "items" true [] []

def scenarioBField : SNode := .mk "field_declaration" "List<String> items;" true []
  [("type", scenarioBTypeNode), ("declarator", scenarioBDeclarator)]

def scenarioBBody : SNode :=
  .mk "class_body" "{ List<String> items; }" true [scenarioBField] []

def scenarioBClass : SNode :=
  .mk "class_declaration" "class C { List<String> items; }" true []
    [("name", .mk "identifier" "C" true [] []), ("body", scenarioBBody)]

def scenarioBImport : SNode := .mk "import_declaration" "import java.util.List;" true
  [.mk "scoped_identifier" "java.util.List" true [] []] []

def scenarioBProgram : SNode :=
  .mk "program" "import java.util.List; class C { List<String> items; }" true
    [scenarioBImport, scenarioBClass] []

/-- Evaluation of the extractor on the scenario-B tree: one report for
`C`, whose `class_deps` are the import path followed by the *raw* text of
the field's type node. -/
theorem scenarioB_eval :
    collect_all_classes scenarioBProgram =
      .ok [ClassDepsReport.mk "C" ["java.util.List", "List<String>"] []] := by
  simp [collect_all_classes, collectGo, scenarioBProgram, scenarioBImport, scenarioBClass,
    scenarioBBody, scenarioBField, scenarioBTypeNode, scenarioBDeclarator,
    SNode.namedChildren, SNode.children, SNode.named, SNode.kind, SNode.fields,
    SNode.childByFieldName, SNode.text, List.filter, List.find?, List.filterMap,
    collect_file_imports, importString, collect_class_dependencies, classBodyDeps,
    typeFieldDeps, declaratorChainDep, resolve_field, methodDeps, filter_dependencies,
    prims, sortStrings, dedupAdj, List.insertionSort, List.orderedInsert]

/-- **C3 counterexample** — scenario B as claimed is false: the extracted
`class_deps` are `["java.util.List", "List<String>"]`; the bare name
`"List"` (generics stripped) is *not* among them, because the tree-based
extractor records the raw type-field text and applies no normalization. -/
theorem c3_counterexample :
    collect_all_classes scenarioBProgram =
      .ok [ClassDepsReport.mk "C" ["java.util.List", "List<String>"] []] ∧
    "List" ∉ ["java.util.List", "List<String>"] :=
  ⟨scenarioB_eval, by decide⟩

/-- **C3 (amended)** — For the scenario-B source file, the extracted
report for `C` has `class_deps` containing `"java.util.List"` (from
the import) and the raw field-type text `"List<String>"` (the
generic-parameter suffix is *not* stripped: the tree-based extractor
applies no type normalization). -/
theorem c3_scenarioB_amended :
    ∃ r, collect_all_classes scenarioBProgram = .ok [r] ∧
      r.class_name = "C" ∧ r.nested_classes = [] ∧
      "java.util.List" ∈ r.class_deps ∧ "List<String>" ∈ r.class_deps :=
  ⟨ClassDepsReport.mk "C" ["java.util.List", "List<String>"] [],
    scenarioB_eval, rfl, rfl, by decide, by decide⟩

/-- **C4 counterexample** — the scenario-B report's `class_deps` is not
sorted: the import prefix `"java.util.List"` precedes the in-class
dependency `"List<String>"`, which is lexicographically smaller
(`'L' < 'j'`).  So not every produced report has a sorted `class_deps`. -/
theorem c4_counterexample :
    collect_all_classes scenarioBProgram =
      .ok [ClassDepsReport.mk "C" ["java.util.List", "List<String>"] []] ∧
    ¬ List.Sorted strLe ["java.util.List", "List<String>"] :=
  ⟨scenarioB_eval, by decide⟩

/-- **C6** — Every `static`-marked import declaration among the file
root's named children contributes its imported path (with any wildcard
suffix) prefixed with `static ` to the dependency list. -/
theorem c6_static_import_prefix (root child pn : SNode)
    (hmem : child ∈ root.namedChildren)
    (hkind : child.kind = "import_declaration")
    (hpath : child.namedChildren[0]? = some pn)
    (hstatic : (child.childByFieldName "static").isSome = true) :
    ("static " ++ (if (child.namedChildren[1]?.map SNode.kind).getD "" = "asterisk"
                   then pn.text ++ ".*" else pn.text)) ∈ collect_file_imports root := by
  unfold collect_file_imports
  rw [List.mem_filterMap]
  exact ⟨child, hmem, by simp [importString, hkind, hpath, hstatic]⟩

/-- A concrete `import static java.util.Collections.sort;` declaration. -/
def staticImportDecl : SNode :=
  .mk "import_declaration" "import static java.util.Collections.sort;" true
    [.mk "scoped_identifier" "java.util.Collections.sort" true [] []]
    [("static", .mk "static" "static" false [] [])]

def staticImportRoot : SNode :=
  .mk "program" "import static java.util.Collections.sort;" true [staticImportDecl] []

/-- **C6 witness** — the static-import theorem applied to a concrete
static import of `java.util.Collections.sort`. -/
theorem c6_witness :
    "static java.util.Collections.sort" ∈ collect_file_imports staticImportRoot := by
  have hmem : staticImportDecl ∈ staticImportRoot.namedChildren := by
    rw [show staticImportRoot.namedChildren = [staticImportDecl] from rfl]
    exact List.mem_singleton_self _
  have h := c6_static_import_prefix staticImportRoot staticImportDecl
    (.mk "scoped_identifier" "java.util.Collections.sort" true [] []) hmem rfl rfl rfl
  simpa using h

/-- Membership of a report anywhere inside a report forest: directly, or
inside some report's nested classes, recursively. -/
inductive InReports : ClassDepsReport → List ClassDepsReport → Prop where
  | here : ∀ {r : ClassDepsReport} {l : List ClassDepsReport}, r ∈ l → InReports r l
  | nested : ∀ {r p : ClassDepsReport} {l : List ClassDepsReport},
      p ∈ l → InReports r p.nested_classes → InReports r l

theorem collect_class_dependencies_ok {c : SNode} {raw : List String}
    (h : collect_class_dependencies c = .ok raw) :
    ∃ d, raw = dedupAdj (sortStrings d) := by
  simp only [collect_class_dependencies] at h
  cases hb : c.childByFieldName "body" with
  | none => rw [hb] at h; cases h
  | some cursor =>
    rw [hb] at h
    injection h with h
    exact ⟨_, h.symm⟩

theorem sorted_filter_sortDedup (d : List String) :
    List.Sorted strLe (filter_dependencies (dedupAdj (sortStrings d))) :=
  (sorted_dedupAdj (sorted_sortStrings d)).filter _

theorem nodup_filter_sortDedup (d : List String) :
    (filter_dependencies (dedupAdj (sortStrings d))).Nodup :=
  (nodup_dedupAdj (sorted_sortStrings d)).filter _

theorem not_prim_of_mem_filter {x : String} {l : List String}
    (h : x ∈ filter_dependencies l) : x ∉ prims := by
  unfold filter_dependencies at h
  rw [List.mem_filter] at h
  simpa using h.2

/-- The per-report shape invariant that `collectGo` actually guarantees. -/
theorem not_inReports_nil {r : ClassDepsReport} (h : InReports r []) : False := by
  cases h with
  | here h => exact absurd h (List.not_mem_nil r)
  | nested hp _ => exact absurd hp (List.not_mem_nil _)

/-- Shape of the reports built by one `collect_all_classes` pass: every
report in the returned list comes from a `class_declaration` child of the
iterated node, and its `class_deps` is exactly that node's file imports
followed by the filtered output of `collect_class_dependencies` on the
class child. -/
theorem collectGo_shape :
    ∀ (node : SNode) (children : List SNode) (l : List ClassDepsReport),
      collectGo node children = .ok l → ∀ r ∈ l, ∃ child raw,
        child ∈ children ∧ child.kind = "class_declaration" ∧
        collect_class_dependencies child = .ok raw ∧
        r.class_deps = collect_file_imports node ++ filter_dependencies raw := by
  intro node children
  induction node, children using collectGo.induct with
  | case1 node =>
    intro l hl r hr
    rw [collectGo] at hl
    injection hl with h
    subst h
    exact absurd hr (List.not_mem_nil r)
  | case2 node c rest hkind hname =>
    intro l hl r hr
    simp only [collectGo] at hl
    rw [if_pos hkind, hname] at hl
    cases hl
  | case3 node c rest hkind cursor hname nestedRes e hnst ihbody =>
    intro l hl r hr
    simp only [collectGo] at hl
    rw [if_pos hkind, hname] at hl
    simp only [] at hl
    unfold_let nestedRes at hnst
    rw [hnst] at hl
    cases hl
  | case4 node c rest hkind cursor hname nestedRes more₁ hnst e hcd ihbody =>
    intro l hl r hr
    simp only [collectGo] at hl
    rw [if_pos hkind, hname] at hl
    simp only [] at hl
    unfold_let nestedRes at hnst
    rw [hnst] at hl
    simp only [] at hl
    rw [hcd] at hl
    cases hl
  | case5 node c rest hkind cursor hname nestedRes more₁ hnst raw hcd e hrest ihbody ihrest =>
    intro l hl r hr
    simp only [collectGo] at hl
    rw [if_pos hkind, hname] at hl
    simp only [] at hl
    unfold_let nestedRes at hnst
    rw [hnst] at hl
    simp only [] at hl
    rw [hcd] at hl
    simp only [] at hl
    rw [hrest] at hl
    cases hl
  | case6 node c rest hkind cursor hname nestedRes more₁ hnst raw hcd more₂ hrest ihbody ihrest =>
    intro l hl r hr
    simp only [collectGo] at hl
    rw [if_pos hkind, hname] at hl
    simp only [] at hl
    unfold_let nestedRes at hnst
    rw [hnst] at hl
    simp only [] at hl
    rw [hcd] at hl
    simp only [] at hl
    rw [hrest] at hl
    injection hl with hl
    subst hl
    rcases List.mem_cons.mp hr with rfl | hmem
    · refine ⟨c, raw, List.mem_cons_self c rest, hkind, hcd, ?_⟩
      rw [ClassDepsReport.class_deps]
    · obtain ⟨child, raw', hc, hk, hcd', heq⟩ := ihrest more₂ hrest r hmem
      exact ⟨child, raw', List.mem_cons_of_mem c hc, hk, hcd', heq⟩
  | case7 node c rest hkind ihrest =>
    intro l hl r hr
    simp only [collectGo] at hl
    rw [if_neg hkind] at hl
    obtain ⟨child, raw', hc, hk, hcd', heq⟩ := ihrest l hl r hr
    exact ⟨child, raw', List.mem_cons_of_mem c hc, hk, hcd', heq⟩

/-- Provenance of the nested lists: each report's `nested_classes` is
either empty (class child without a body field) or exactly the output of
`collect_all_classes` on the class child's body. -/
theorem collectGo_nested :
    ∀ (node : SNode) (children : List SNode) (l : List ClassDepsReport),
      collectGo node children = .ok l → ∀ r ∈ l,
        r.nested_classes = [] ∨
        ∃ child body, child ∈ children ∧ child.kind = "class_declaration" ∧
          child.childByFieldName "body" = some body ∧
          collect_all_classes body = .ok r.nested_classes := by
  intro node children
  induction node, children using collectGo.induct with
  | case1 node =>
    intro l hl r hr
    rw [collectGo] at hl
    injection hl with h
    subst h
    exact absurd hr (List.not_mem_nil r)
  | case2 node c rest hkind hname =>
    intro l hl r hr
    simp only [collectGo] at hl
    rw [if_pos hkind, hname] at hl
    cases hl
  | case3 node c rest hkind cursor hname nestedRes e hnst ihbody =>
    intro l hl r hr
    simp only [collectGo] at hl
    rw [if_pos hkind, hname] at hl
    simp only [] at hl
    unfold_let nestedRes at hnst
    rw [hnst] at hl
    cases hl
  | case4 node c rest hkind cursor hname nestedRes more₁ hnst e hcd ihbody =>
    intro l hl r hr
    simp only [collectGo] at hl
    rw [if_pos hkind, hname] at hl
    simp only [] at hl
    unfold_let nestedRes at hnst
    rw [hnst] at hl
    simp only [] at hl
    rw [hcd] at hl
    cases hl
  | case5 node c rest hkind cursor hname nestedRes more₁ hnst raw hcd e hrest ihbody ihrest =>
    intro l hl r hr
    simp only [collectGo] at hl
    rw [if_pos hkind, hname] at hl
    simp only [] at hl
    unfold_let nestedRes at hnst
    rw [hnst] at hl
    simp only [] at hl
    rw [hcd] at hl
    simp only [] at hl
    rw [hrest] at hl
    cases hl
  | case6 node c rest hkind cursor hname nestedRes more₁ hnst raw hcd more₂ hrest ihbody ihrest =>
    intro l hl r hr
    simp only [collectGo] at hl
    rw [if_pos hkind, hname] at hl
    simp only [] at hl
    unfold_let nestedRes at hnst
    rw [hnst] at hl
    simp only [] at hl
    rw [hcd] at hl
    simp only [] at hl
    rw [hrest] at hl
    injection hl with hl
    subst hl
    rcases List.mem_cons.mp hr with rfl | hmem
    · split at hnst
      · rename_i body hb
        right
        refine ⟨c, body, List.mem_cons_self c rest, hkind, hb, ?_⟩
        rw [ClassDepsReport.nested_classes]
        exact hnst
      · rename_i hb
        left
        injection hnst with hnst
        rw [ClassDepsReport.nested_classes]
        exact hnst.symm
    · rcases ihrest more₂ hrest r hmem with hnil | ⟨child, body, hc, hk, hb, hcb⟩
      · exact Or.inl hnil
      · exact Or.inr ⟨child, body, List.mem_cons_of_mem c hc, hk, hb, hcb⟩
  | case7 node c rest hkind ihrest =>
    intro l hl r hr
    simp only [collectGo] at hl
    rw [if_neg hkind] at hl
    rcases ihrest l hl r hr with hnil | ⟨child, body, hc, hk, hb, hcb⟩
    · exact Or.inl hnil
    · exact Or.inr ⟨child, body, List.mem_cons_of_mem c hc, hk, hb, hcb⟩

/-- The nodes on which a run of `collect_all_classes` rooted at `root`
recursively invokes itself: the root itself, and the body of every class
declaration found along the way. -/
inductive InRun : SNode → SNode → Prop where
  | base : ∀ (root : SNode), InRun root root
  | step : ∀ {root parent child body : SNode},
      InRun root parent → child ∈ parent.namedChildren →
      child.kind = "class_declaration" →
      child.childByFieldName "body" = some body →
      InRun root body

theorem inRun_trans {a b c : SNode} (h1 : InRun a b) (h2 : InRun b c) :
    InRun a c := by
  induction h2 with
  | base => exact h1
  | step _ hc hk hb ih => exact InRun.step ih hc hk hb

/-- **C4 (amended)** — Every `ClassDepsReport` the extractor produces
(nested ones included) originates from a `class_declaration` child of
some node visited by the run, and its `class_deps` is exactly that node's
file-scope imports followed by the filtered in-class dependency list of
that class child; the in-class suffix is sorted, duplicate-free, and free
of primitive-type names, while the `class_deps` sequence as a whole
(imports prefix included) need not be sorted or duplicate-free, and no
keyword exclusion is applied. -/
theorem c4_class_deps_invariant_amended (root : SNode)
    (l : List ClassDepsReport) (r : ClassDepsReport)
    (hok : collect_all_classes root = .ok l) (hr : InReports r l) :
    ∃ parent child raw reports,
      InRun root parent ∧
      collect_all_classes parent = .ok reports ∧ r ∈ reports ∧
      child ∈ parent.namedChildren ∧ child.kind = "class_declaration" ∧
      collect_class_dependencies child = .ok raw ∧
      r.class_deps = collect_file_imports parent ++ filter_dependencies raw ∧
      List.Sorted strLe (filter_dependencies raw) ∧
      (filter_dependencies raw).Nodup ∧
      (∀ x ∈ filter_dependencies raw, x ∉ prims) := by
  revert hok
  induction hr generalizing root with
  | here hmem =>
    intro hok
    obtain ⟨child, raw, hc, hk, hcd, heq⟩ :=
      collectGo_shape root root.namedChildren _ hok _ hmem
    obtain ⟨d, hd⟩ := collect_class_dependencies_ok hcd
    refine ⟨root, child, raw, _, InRun.base root, hok, hmem, hc, hk, hcd, heq,
      ?_, ?_, ?_⟩
    · rw [hd]; exact sorted_filter_sortDedup d
    · rw [hd]; exact nodup_filter_sortDedup d
    · intro x hx; exact not_prim_of_mem_filter hx
  | nested hp hnested ih =>
    intro hok
    rcases collectGo_nested root root.namedChildren _ hok _ hp with
      hnil | ⟨child, body, hcm, hck, hbf, hcb⟩
    · rw [hnil] at hnested
      exact absurd hnested not_inReports_nil
    · obtain ⟨parent, child', raw, reports, hrun, hcoll, hmem', hc', hk', hcd',
        heq', hs', hn', hpr'⟩ := ih body hcb
      exact ⟨parent, child', raw, reports,
        inRun_trans (InRun.step (InRun.base root) hcm hck hbf) hrun,
        hcoll, hmem', hc', hk', hcd', heq', hs', hn', hpr'⟩

/-- **C4 witness** — the invariant applied to the scenario-B run: the
report for `C` arises from the class child of the program root, and its
`class_deps` decomposes as the root's imports `["java.util.List"]`
followed by the sorted, duplicate-free, primitive-free in-class suffix
`["List<String>"]`. -/
theorem c4_witness :
    ∃ parent child raw reports,
      InRun scenarioBProgram parent ∧
      collect_all_classes parent = .ok reports ∧
      ClassDepsReport.mk "C" ["java.util.List", "List<String>"] [] ∈ reports ∧
      child ∈ parent.namedChildren ∧ child.kind = "class_declaration" ∧
      collect_class_dependencies child = .ok raw ∧
      (ClassDepsReport.mk "C" ["java.util.List", "List<String>"] []).class_deps =
        collect_file_imports parent ++ filter_dependencies raw ∧
      List.Sorted strLe (filter_dependencies raw) ∧
      (filter_dependencies raw).Nodup ∧
      (∀ x ∈ filter_dependencies raw, x ∉ prims) :=
  c4_class_deps_invariant_amended scenarioBProgram
    [ClassDepsReport.mk "C" ["java.util.List", "List<String>"] []]
    (ClassDepsReport.mk "C" ["java.util.List", "List<String>"] [])
    scenarioB_eval (InReports.here (List.mem_singleton_self _))

/-! ## Entry points: get_class/package/project_dependencies

`File::open`/`read_to_string` outcomes for a path. -/

inductive FileOutcome where
  | missing (e : String)
  | unreadable (e : String)
  | content (s : String)

/-- Outcome of a computation that may return `Err` or abort the process
with a panic (`expect`/`unwrap` failure). -/
inductive RunResult (α : Type) where
  | ok (a : α)
  | err (e : String)
  | panic (msg : String)

def RunResult.isOk : RunResult α → Bool
  | .ok _ => true
  | _ => false

def RunResult.isErr : RunResult α → Bool
  | .err _ => true
  | _ => false

def RunResult.isPanic : RunResult α → Bool
  | .panic _ => true
  | _ => false

/-- `PackageDepsReport` of `common/types.rs`. -/
structure PackageDepsReport where
  package_name : String
  package_deps : List String

/-- `ProjectDepsReport` of `part01/src/common/types.rs`: a project folder
together with the project-wide dependency list. -/
structure ProjectDepsReport where
  project_folder : String
  project_deps : List String

/-- `get_class_dependencies`: open and read the file (its `Err` paths),
load the Java grammar (`expect` — fatal panic), parse
(`expect` — fatal panic), then extract classes (whose internal `expect`s
also panic).  `parse` is the tree-sitter oracle returning the root node of
the parsed tree, `grammarOk` whether `set_language` succeeds, `fs` the
filesystem. -/
def get_class_dependencies (grammarOk : Bool) (parse : String → Option SNode)
    (fs : String → FileOutcome) (class_src_file : String) :
    RunResult (List ClassDepsReport) :=
  match fs class_src_file with
  | .missing e => .err ("Failed to open file: " ++ e)
  | .unreadable e => .err ("Failed to read file: " ++ e)
  | .content contents =>
    if grammarOk then
      match parse contents with
      | none => .panic "Failed to parse the Java source"
      | some root =>
        match collect_all_classes root with
        | .error msg => .panic msg
        | .ok classes => .ok classes
    else .panic "Error loading Java grammar"

/-- Rust `str::contains` on char lists: some suffix starts with `pat`. -/
def listContains : List Char → List Char → Bool
  | [], pat => pat.isEmpty
  | c :: rest, pat => pat.isPrefixOf (c :: rest) || listContains rest pat

/-- `file_name.contains(".java")` and friends. -/
def strContains (s pat : String) : Bool := listContains s.data pat.data

/-- The `for path in paths` loop of `get_package_dependencies`: files whose
name contains `.java` are processed; an `Err` from
`get_class_dependencies` is printed and skipped; each `Ok` class
contributes its own `class_deps` (nested classes ignored); a panic aborts
everything. -/
def pkgGo (grammarOk : Bool) (parse : String → Option SNode)
    (fs : String → FileOutcome) (p_folder : String) :
    List String → List String → RunResult (List String)
  | [], acc => .ok acc
  | file_name :: rest, acc =>
    if strContains file_name ".java" then
      match get_class_dependencies grammarOk parse fs (p_folder ++ "/" ++ file_name) with
      | .ok classes =>
        pkgGo grammarOk parse fs p_folder rest
          (acc ++ (classes.map ClassDepsReport.class_deps).join)
      | .err _ => pkgGo grammarOk parse fs p_folder rest acc
      | .panic m => .panic m
    else pkgGo grammarOk parse fs p_folder rest acc

/-- `get_package_dependencies`: `read_dir` failure (`listing = none`) is
the `Invalid folder` error; otherwise the directory's file names are
processed and the union is sorted and deduplicated.  (The model assumes
the listing's entries themselves are readable, as the source `unwrap`s
them.) -/
def get_package_dependencies (grammarOk : Bool) (parse : String → Option SNode)
    (fs : String → FileOutcome) (listing : Option (List String))
    (package_folder : String) : RunResult PackageDepsReport :=
  match listing with
  | none => .err "Invalid folder"
  | some paths =>
    match pkgGo grammarOk parse fs package_folder paths [] with
    | .ok dependencies =>
      .ok ⟨package_folder, dedupAdj (sortStrings dependencies)⟩
    | .err e => .err e
    | .panic m => .panic m

/-- One entry yielded by the `WalkDir` traversal (errored entries are
filtered out by `filter_map(|e| e.ok())`, so only successful entries are
modelled). -/
structure FsEntry where
  path : String
  fileName : String
  isFile : Bool

/-- The walk loop of `get_project_dependencies`: `.java` files are
processed; an `Err` from `get_class_dependencies` is returned immediately
(`return Err(e)`); each `Ok` class contributes its recursively flattened
`get_dependencies`; a panic aborts everything. -/
def projGo (grammarOk : Bool) (parse : String → Option SNode)
    (fs : String → FileOutcome) :
    List FsEntry → List String → RunResult (List String)
  | [], acc => .ok acc
  | entry :: rest, acc =>
    if entry.isFile && strContains entry.fileName ".java" then
      match get_class_dependencies grammarOk parse fs entry.path with
      | .ok vector =>
        projGo grammarOk parse fs rest
          (acc ++ (vector.map ClassDepsReport.get_dependencies).join)
      | .err e => .err e
      | .panic m => .panic m
    else projGo grammarOk parse fs rest acc

/-- `get_project_dependencies`: the full recursive walk, flattening every
class report, then sorting and deduplicating. -/
def get_project_dependencies (grammarOk : Bool) (parse : String → Option SNode)
    (fs : String → FileOutcome) (entries : List FsEntry)
    (project_folder : String) : RunResult ProjectDepsReport :=
  match projGo grammarOk parse fs entries [] with
  | .ok dependencies =>
    .ok ⟨project_folder, dedupAdj (sortStrings dependencies)⟩
  | .err e => .err e
  | .panic m => .panic m

/-- A parser oracle that fails on every input. -/
def parseFailOracle : String → Option SNode := fun _ => none

/-- A filesystem in which every path opens and reads successfully. -/
def allReadableFs : String → FileOutcome := fun _ => .content "malformed text"

/-- **C5 counterexample** — when parsing a file's text does not yield a
valid tree, `get_class_dependencies` does *not* return a per-file
recoverable error result: it panics (`expect("Failed to parse the Java
source")`), aborting the whole run. -/
theorem c5_counterexample :
    get_class_dependencies true parseFailOracle allReadableFs "Bad.java" =
      .panic "Failed to parse the Java source" ∧
    (get_class_dependencies true parseFailOracle allReadableFs "Bad.java").isErr
      = false :=
  ⟨rfl, rfl⟩

/-- **C5 (amended)** — If the grammar cannot be loaded the whole run
aborts as a fatal error (a panic); but if parsing a specific readable
file's text does not yield a valid tree, `get_class_dependencies` *also*
aborts with a panic rather than returning a per-file error result; the
recoverable `Err` results arise only from open/read failures (and their
messages carry the I/O error, not the path). -/
theorem c5_error_policy_amended (parse : String → Option SNode)
    (fs : String → FileOutcome) (path c : String)
    (hread : fs path = .content c) :
    get_class_dependencies false parse fs path = .panic "Error loading Java grammar" ∧
    (parse c = none →
      get_class_dependencies true parse fs path = .panic "Failed to parse the Java source") ∧
    (∀ grammarOk m, get_class_dependencies grammarOk parse fs path ≠ .err m) := by
  refine ⟨?_, ?_, ?_⟩
  · unfold get_class_dependencies
    rw [hread]
    rfl
  · intro hp
    unfold get_class_dependencies
    rw [hread]
    simp [hp]
  · intro grammarOk m
    unfold get_class_dependencies
    rw [hread]
    cases grammarOk with
    | false => simp
    | true =>
      cases hp : parse c with
      | none => simp [hp]
      | some root =>
        cases hc : collect_all_classes root with
        | error msg => simp [hp, hc]
        | ok classes => simp [hp, hc]

/-- **C5 witness** — the amended error policy at a concrete readable
file. -/
theorem c5_witness :
    get_class_dependencies false parseFailOracle allReadableFs "A.java" =
      .panic "Error loading Java grammar" :=
  (c5_error_policy_amended parseFailOracle allReadableFs "A.java" "malformed text" rfl).1

/-- A valid parsed source file: `import java.util.X; class A {}`. -/
def goodProgram : SNode :=
  .mk "program" "import java.util.X; class A {}" true
    [.mk "import_declaration" "import java.util.X;" true
       [.mk "scoped_identifier" "java.util.X" true [] []] [],
     .mk "class_declaration" "class A {}" true []
       [("name", .mk "identifier" "A" true [] []),
        ("body", .mk "class_body" "{}" true [] [])]] []

theorem goodProgram_eval :
    collect_all_classes goodProgram =
      .ok [ClassDepsReport.mk "A" ["java.util.X"] []] := by
  simp [collect_all_classes, collectGo, goodProgram,
    SNode.namedChildren, SNode.children, SNode.named, SNode.kind, SNode.fields,
    SNode.childByFieldName, SNode.text, List.filter, List.find?, List.filterMap,
    collect_file_imports, importString, collect_class_dependencies, classBodyDeps,
    filter_dependencies, prims, sortStrings, dedupAdj, List.insertionSort,
    List.orderedInsert]

/-- The parser oracle of the mixed-tree scenario: the valid file's text
parses to `goodProgram`; everything else fails to parse. -/
def projParse : String → Option SNode :=
  fun s => if s = "good" then some goodProgram else none

/-- The filesystem of the mixed-tree scenario: every file opens and
reads; `Good.java` holds the valid text, everything else malformed
text. -/
def projFs : String → FileOutcome :=
  fun p => if p = "Good.java" then .content "good" else .content "bad"

/-- A directory tree holding one valid and one malformed source file. -/
def projEntries : List FsEntry :=
  [⟨"Good.java", "Good.java", true⟩, ⟨"Bad.java", "Bad.java", true⟩]


theorem gcd_eval_ok (parse : String → Option SNode) (fs : String → FileOutcome)
    (path c : String) (root : SNode) (classes : List ClassDepsReport)
    (hread : fs path = .content c) (hparse : parse c = some root)
    (hcollect : collect_all_classes root = .ok classes) :
    get_class_dependencies true parse fs path = .ok classes := by
  unfold get_class_dependencies
  rw [hread]
  simp [hparse, hcollect]

theorem gcd_eval_parse_fail (parse : String → Option SNode) (fs : String → FileOutcome)
    (path c : String) (hread : fs path = .content c) (hparse : parse c = none) :
    get_class_dependencies true parse fs path =
      .panic "Failed to parse the Java source" := by
  unfold get_class_dependencies
  rw [hread]
  simp [hparse]

theorem gcd_eval_missing (grammarOk : Bool) (parse : String → Option SNode)
    (fs : String → FileOutcome) (path e : String) (hread : fs path = .missing e) :
    get_class_dependencies grammarOk parse fs path =
      .err ("Failed to open file: " ++ e) := by
  unfold get_class_dependencies
  rw [hread]

theorem projGo_step_ok (grammarOk : Bool) (parse : String → Option SNode)
    (fs : String → FileOutcome) (e : FsEntry) (rest : List FsEntry)
    (acc : List String) (classes : List ClassDepsReport)
    (hjava : (e.isFile && strContains e.fileName ".java") = true)
    (hgcd : get_class_dependencies grammarOk parse fs e.path = .ok classes) :
    projGo grammarOk parse fs (e :: rest) acc =
      projGo grammarOk parse fs rest
        (acc ++ (classes.map ClassDepsReport.get_dependencies).join) := by
  simp only [projGo]
  rw [if_pos hjava, hgcd]

theorem projGo_step_panic (grammarOk : Bool) (parse : String → Option SNode)
    (fs : String → FileOutcome) (e : FsEntry) (rest : List FsEntry)
    (acc : List String) (m : String)
    (hjava : (e.isFile && strContains e.fileName ".java") = true)
    (hgcd : get_class_dependencies grammarOk parse fs e.path = .panic m) :
    projGo grammarOk parse fs (e :: rest) acc = .panic m := by
  simp only [projGo]
  rw [if_pos hjava, hgcd]

theorem proj_wrap_ok (grammarOk : Bool) (parse : String → Option SNode)
    (fs : String → FileOutcome) (entries : List FsEntry) (folder : String)
    (deps : List String) (h : projGo grammarOk parse fs entries [] = .ok deps) :
    get_project_dependencies grammarOk parse fs entries folder =
      .ok ⟨folder, dedupAdj (sortStrings deps)⟩ := by
  unfold get_project_dependencies
  rw [h]

theorem proj_wrap_panic (grammarOk : Bool) (parse : String → Option SNode)
    (fs : String → FileOutcome) (entries : List FsEntry) (folder : String)
    (m : String) (h : projGo grammarOk parse fs entries [] = .panic m) :
    get_project_dependencies grammarOk parse fs entries folder = .panic m := by
  unfold get_project_dependencies
  rw [h]

/-- **C1 counterexample** — on a tree with one valid file and one file
that fails to parse, `get_project_dependencies` does not return a
`ProjectDepsReport` with the valid file's dependencies: it aborts with the
parse panic, so no report at all is produced. -/
theorem c1_counterexample :
    get_project_dependencies true projParse projFs projEntries "proj" =
      .panic "Failed to parse the Java source" ∧
    (get_project_dependencies true projParse projFs projEntries "proj").isOk
      = false := by
  have heval : get_project_dependencies true projParse projFs projEntries "proj" =
      .panic "Failed to parse the Java source" := by
    apply proj_wrap_panic
    rw [show projEntries = ⟨"Good.java", "Good.java", true⟩ ::
      [⟨"Bad.java", "Bad.java", true⟩] from rfl]
    rw [projGo_step_ok true projParse projFs ⟨"Good.java", "Good.java", true⟩ _ _
      [ClassDepsReport.mk "A" ["java.util.X"] []] rfl
      (gcd_eval_ok projParse projFs "Good.java" "good" goodProgram _ rfl rfl
        goodProgram_eval)]
    exact projGo_step_panic true projParse projFs ⟨"Bad.java", "Bad.java", true⟩ _ _ _
      rfl (gcd_eval_parse_fail projParse projFs "Bad.java" "bad" rfl rfl)
  exact ⟨heval, by rw [heval]; rfl⟩

theorem projGo_ok_all (grammarOk : Bool) (parse : String → Option SNode)
    (fs : String → FileOutcome) :
    ∀ (entries : List FsEntry) (acc deps : List String),
      projGo grammarOk parse fs entries acc = .ok deps →
      ∀ e ∈ entries, e.isFile = true → strContains e.fileName ".java" = true →
        ∃ classes, get_class_dependencies grammarOk parse fs e.path = .ok classes := by
  intro entries
  induction entries with
  | nil =>
    intro acc deps _ e hmem
    exact absurd hmem (List.not_mem_nil e)
  | cons a rest ih =>
    intro acc deps h e hmem hf hj
    simp only [projGo] at h
    rcases List.mem_cons.mp hmem with rfl | hmem'
    · rw [if_pos (by rw [hf, hj]; rfl)] at h
      cases hg : get_class_dependencies grammarOk parse fs e.path with
      | ok classes => exact ⟨classes, rfl⟩
      | err msg => rw [hg] at h; cases h
      | panic msg => rw [hg] at h; cases h
    · split at h
      · cases hg : get_class_dependencies grammarOk parse fs a.path with
        | ok classes =>
          rw [hg] at h
          exact ih _ deps h e hmem' hf hj
        | err msg => rw [hg] at h; cases h
        | panic msg => rw [hg] at h; cases h
      · exact ih _ deps h e hmem' hf hj

/-- **C1 (amended)** — `get_project_dependencies` tolerates no failing
file: it returns a `ProjectDepsReport` only when *every* `.java` file in
the walked tree was successfully opened, read, parsed and extracted (a
parse failure aborts the run with a panic, a read failure returns `Err`),
so a failing file's contribution is never "merely absent" from a returned
report. -/
theorem c1_project_requires_all_files_amended (grammarOk : Bool)
    (parse : String → Option SNode) (fs : String → FileOutcome)
    (entries : List FsEntry) (folder : String) (rep : ProjectDepsReport)
    (hok : get_project_dependencies grammarOk parse fs entries folder = .ok rep) :
    ∀ e ∈ entries, e.isFile = true → strContains e.fileName ".java" = true →
      ∃ classes, get_class_dependencies grammarOk parse fs e.path = .ok classes := by
  unfold get_project_dependencies at hok
  cases hp : projGo grammarOk parse fs entries [] with
  | ok deps => exact projGo_ok_all grammarOk parse fs entries [] deps hp
  | err msg => rw [hp] at hok; cases hok
  | panic msg => rw [hp] at hok; cases hok

/-- An all-valid single-file tree for the witness. -/
def goodEntries : List FsEntry := [⟨"Good.java", "Good.java", true⟩]

/-- **C1 witness** — the amended theorem applied to a tree whose single
`.java` file is valid: the returned report implies the file extracted
successfully. -/
theorem c1_witness :
    ∃ classes, get_class_dependencies true projParse projFs "Good.java" =
      .ok classes := by
  have hok : get_project_dependencies true projParse projFs goodEntries "proj" =
      .ok ⟨"proj", ["java.util.X"]⟩ := by
    have hgo : projGo true projParse projFs goodEntries [] =
        .ok ([] ++ ([ClassDepsReport.mk "A" ["java.util.X"] []].map
              ClassDepsReport.get_dependencies).join) := by
      rw [show goodEntries = ⟨"Good.java", "Good.java", true⟩ :: [] from rfl]
      rw [projGo_step_ok true projParse projFs ⟨"Good.java", "Good.java", true⟩ _ _
        [ClassDepsReport.mk "A" ["java.util.X"] []] rfl
        (gcd_eval_ok projParse projFs "Good.java" "good" goodProgram _ rfl rfl
          goodProgram_eval)]
      rw [projGo]
    rw [proj_wrap_ok true projParse projFs goodEntries "proj" _ hgo]
    rfl
  exact c1_project_requires_all_files_amended true projParse projFs goodEntries
    "proj" ⟨"proj", ["java.util.X"]⟩ hok ⟨"Good.java", "Good.java", true⟩
    (List.mem_singleton_self _) rfl rfl


theorem pkgGo_step_ok (grammarOk : Bool) (parse : String → Option SNode)
    (fs : String → FileOutcome) (folder f : String) (rest : List String)
    (acc : List String) (classes : List ClassDepsReport)
    (hjava : strContains f ".java" = true)
    (hgcd : get_class_dependencies grammarOk parse fs (folder ++ "/" ++ f) =
      .ok classes) :
    pkgGo grammarOk parse fs folder (f :: rest) acc =
      pkgGo grammarOk parse fs folder rest
        (acc ++ (classes.map ClassDepsReport.class_deps).join) := by
  simp only [pkgGo]
  rw [if_pos hjava, hgcd]

theorem pkgGo_step_err (grammarOk : Bool) (parse : String → Option SNode)
    (fs : String → FileOutcome) (folder f : String) (rest : List String)
    (acc : List String) (m : String)
    (hjava : strContains f ".java" = true)
    (hgcd : get_class_dependencies grammarOk parse fs (folder ++ "/" ++ f) =
      .err m) :
    pkgGo grammarOk parse fs folder (f :: rest) acc =
      pkgGo grammarOk parse fs folder rest acc := by
  simp only [pkgGo]
  rw [if_pos hjava, hgcd]

theorem pkgGo_step_skip (grammarOk : Bool) (parse : String → Option SNode)
    (fs : String → FileOutcome) (folder f : String) (rest : List String)
    (acc : List String) (hjava : ¬ strContains f ".java" = true) :
    pkgGo grammarOk parse fs folder (f :: rest) acc =
      pkgGo grammarOk parse fs folder rest acc := by
  simp only [pkgGo]
  rw [if_neg hjava]

theorem pkgGo_step_panic (grammarOk : Bool) (parse : String → Option SNode)
    (fs : String → FileOutcome) (folder f : String) (rest : List String)
    (acc : List String) (m : String)
    (hjava : strContains f ".java" = true)
    (hgcd : get_class_dependencies grammarOk parse fs (folder ++ "/" ++ f) =
      .panic m) :
    pkgGo grammarOk parse fs folder (f :: rest) acc = .panic m := by
  simp only [pkgGo]
  rw [if_pos hjava, hgcd]

theorem pkg_wrap_panic (grammarOk : Bool) (parse : String → Option SNode)
    (fs : String → FileOutcome) (files : List String) (folder : String)
    (m : String) (h : pkgGo grammarOk parse fs folder files [] = .panic m) :
    get_package_dependencies grammarOk parse fs (some files) folder = .panic m := by
  simp only [get_package_dependencies]
  rw [h]

theorem pkg_wrap_ok (grammarOk : Bool) (parse : String → Option SNode)
    (fs : String → FileOutcome) (files : List String) (folder : String)
    (deps : List String)
    (h : pkgGo grammarOk parse fs folder files [] = .ok deps) :
    get_package_dependencies grammarOk parse fs (some files) folder =
      .ok ⟨folder, dedupAdj (sortStrings deps)⟩ := by
  simp only [get_package_dependencies]
  rw [h]

/-- **C9 counterexample** — `get_package_dependencies` does *not* return
`Ok` when a contained file fails to process: a file whose text fails to
parse panics the whole call, even though the directory listing itself was
obtained. -/
theorem c9_counterexample :
    get_package_dependencies true parseFailOracle allReadableFs
      (some ["Bad.java"]) "pkg" = .panic "Failed to parse the Java source" ∧
    (get_package_dependencies true parseFailOracle allReadableFs
      (some ["Bad.java"]) "pkg").isOk = false := by
  have heval : get_package_dependencies true parseFailOracle allReadableFs
      (some ["Bad.java"]) "pkg" = .panic "Failed to parse the Java source" := by
    apply pkg_wrap_panic
    exact pkgGo_step_panic true parseFailOracle allReadableFs "pkg" "Bad.java" [] []
      _ rfl (gcd_eval_parse_fail parseFailOracle allReadableFs "pkg/Bad.java"
        "malformed text" rfl rfl)
  exact ⟨heval, by rw [heval]; rfl⟩

/-- The contribution of one directory entry to `package_deps`: files that
process successfully contribute their classes' `class_deps`; failing or
non-`.java` files contribute nothing. -/
def pkgFileDeps (grammarOk : Bool) (parse : String → Option SNode)
    (fs : String → FileOutcome) (p_folder file_name : String) : List String :=
  if strContains file_name ".java" then
    match get_class_dependencies grammarOk parse fs
      (p_folder ++ "/" ++ file_name) with
    | .ok classes => (classes.map ClassDepsReport.class_deps).join
    | _ => []
  else []

/-- The reference value for the error-tolerance theorem: the union of the
successful files' contributions, in listing order. -/
def pkgCollect (grammarOk : Bool) (parse : String → Option SNode)
    (fs : String → FileOutcome) (p_folder : String) (files : List String) :
    List String :=
  (files.map (pkgFileDeps grammarOk parse fs p_folder)).join

theorem pkgFileDeps_ok (grammarOk : Bool) (parse : String → Option SNode)
    (fs : String → FileOutcome) (folder f : String)
    (classes : List ClassDepsReport) (hjava : strContains f ".java" = true)
    (hgcd : get_class_dependencies grammarOk parse fs (folder ++ "/" ++ f) =
      .ok classes) :
    pkgFileDeps grammarOk parse fs folder f =
      (classes.map ClassDepsReport.class_deps).join := by
  simp only [pkgFileDeps]
  rw [if_pos hjava, hgcd]

theorem pkgFileDeps_err (grammarOk : Bool) (parse : String → Option SNode)
    (fs : String → FileOutcome) (folder f : String) (m : String)
    (hjava : strContains f ".java" = true)
    (hgcd : get_class_dependencies grammarOk parse fs (folder ++ "/" ++ f) =
      .err m) :
    pkgFileDeps grammarOk parse fs folder f = [] := by
  simp only [pkgFileDeps]
  rw [if_pos hjava, hgcd]

theorem pkgFileDeps_skip (grammarOk : Bool) (parse : String → Option SNode)
    (fs : String → FileOutcome) (folder f : String)
    (hjava : ¬ strContains f ".java" = true) :
    pkgFileDeps grammarOk parse fs folder f = [] := by
  simp only [pkgFileDeps]
  rw [if_neg hjava]

theorem pkgGo_ok_of_no_panic (grammarOk : Bool) (parse : String → Option SNode)
    (fs : String → FileOutcome) (folder : String) :
    ∀ (files : List String) (acc : List String),
      (∀ f ∈ files, strContains f ".java" = true →
        (get_class_dependencies grammarOk parse fs (folder ++ "/" ++ f)).isPanic
          = false) →
      pkgGo grammarOk parse fs folder files acc =
        .ok (acc ++ pkgCollect grammarOk parse fs folder files) := by
  intro files
  induction files with
  | nil =>
    intro acc _
    simp [pkgGo, pkgCollect]
  | cons f rest ih =>
    intro acc h
    have htail : ∀ f' ∈ rest, strContains f' ".java" = true →
        (get_class_dependencies grammarOk parse fs (folder ++ "/" ++ f')).isPanic
          = false :=
      fun f' hf' => h f' (List.mem_cons_of_mem f hf')
    have hcol : pkgCollect grammarOk parse fs folder (f :: rest) =
        pkgFileDeps grammarOk parse fs folder f ++
          pkgCollect grammarOk parse fs folder rest := by
      simp [pkgCollect]
    by_cases hj : strContains f ".java" = true
    · cases hg : get_class_dependencies grammarOk parse fs (folder ++ "/" ++ f) with
      | ok classes =>
        rw [pkgGo_step_ok grammarOk parse fs folder f rest acc classes hj hg,
          ih _ htail, hcol,
          pkgFileDeps_ok grammarOk parse fs folder f classes hj hg]
        simp [List.append_assoc]
      | err m =>
        rw [pkgGo_step_err grammarOk parse fs folder f rest acc m hj hg,
          ih _ htail, hcol, pkgFileDeps_err grammarOk parse fs folder f m hj hg]
        simp
      | panic m =>
        have hp := h f (List.mem_cons_self f rest) hj
        rw [hg] at hp
        simp [RunResult.isPanic] at hp
    · rw [pkgGo_step_skip grammarOk parse fs folder f rest acc hj, ih _ htail,
        hcol, pkgFileDeps_skip grammarOk parse fs folder f hj]
      simp

/-- **C9 (amended)** — `get_package_dependencies` returns `Err` exactly
when the directory listing cannot be obtained, and returns `Ok` whenever
no contained file *panics* (i.e. every `.java` file either processes
successfully or merely fails to open/read): each failing file's
contribution is silently absent from `package_deps`.  A file whose text
fails to parse, however, panics and aborts the call, so "fails to
process" tolerance holds only for the open/read error paths. -/
theorem c9_package_error_policy_amended (grammarOk : Bool)
    (parse : String → Option SNode) (fs : String → FileOutcome)
    (folder : String) :
    get_package_dependencies grammarOk parse fs none folder =
      .err "Invalid folder" ∧
    ∀ files, (∀ f ∈ files, strContains f ".java" = true →
        (get_class_dependencies grammarOk parse fs (folder ++ "/" ++ f)).isPanic
          = false) →
      get_package_dependencies grammarOk parse fs (some files) folder =
        .ok ⟨folder,
          dedupAdj (sortStrings (pkgCollect grammarOk parse fs folder files))⟩ := by
  constructor
  · rfl
  · intro files h
    rw [pkg_wrap_ok grammarOk parse fs files folder _
      (pkgGo_ok_of_no_panic grammarOk parse fs folder files [] h)]
    rw [List.nil_append]

/-- The witness package directory: one valid file and one that fails to
open. -/
def pkgFs : String → FileOutcome :=
  fun p => if p = "pkg/Good.java" then .content "good"
           else .missing "No such file or directory (os error 2)"

/-- **C9 witness** — the amended policy at a concrete directory: a missing
listing yields `Err "Invalid folder"`; a listing with one valid file and
one unopenable file yields `Ok` with only the valid file's
dependencies. -/
theorem c9_witness :
    get_package_dependencies true projParse pkgFs none "pkg" =
      .err "Invalid folder" ∧
    get_package_dependencies true projParse pkgFs
      (some ["Good.java", "Missing.java"]) "pkg" =
      .ok ⟨"pkg", ["java.util.X"]⟩ := by
  obtain ⟨h1, h2⟩ := c9_package_error_policy_amended true projParse pkgFs "pkg"
  refine ⟨h1, ?_⟩
  have hgcdG : get_class_dependencies true projParse pkgFs "pkg/Good.java" =
      .ok [ClassDepsReport.mk "A" ["java.util.X"] []] :=
    gcd_eval_ok projParse pkgFs "pkg/Good.java" "good" goodProgram _ rfl rfl
      goodProgram_eval
  have hgcdM : get_class_dependencies true projParse pkgFs "pkg/Missing.java" =
      .err ("Failed to open file: " ++ "No such file or directory (os error 2)") :=
    gcd_eval_missing true projParse pkgFs "pkg/Missing.java" _ rfl
  have hnp : ∀ f ∈ ["Good.java", "Missing.java"], strContains f ".java" = true →
      (get_class_dependencies true projParse pkgFs ("pkg" ++ "/" ++ f)).isPanic
        = false := by
    intro f hf _
    have hf' : f = "Good.java" ∨ f = "Missing.java" := by simpa using hf
    rcases hf' with rfl | rfl
    · rw [show ("pkg" ++ "/" ++ "Good.java" : String) = "pkg/Good.java" from rfl,
        hgcdG]
      rfl
    · rw [show ("pkg" ++ "/" ++ "Missing.java" : String) = "pkg/Missing.java" from
        rfl, hgcdM]
      rfl
  rw [h2 ["Good.java", "Missing.java"] hnp]
  have hcG : pkgFileDeps true projParse pkgFs "pkg" "Good.java" =
      ["java.util.X"] := by
    rw [pkgFileDeps_ok true projParse pkgFs "pkg" "Good.java"
      [ClassDepsReport.mk "A" ["java.util.X"] []] rfl
      (by rw [show ("pkg" ++ "/" ++ "Good.java" : String) = "pkg/Good.java" from rfl,
        hgcdG])]
    rfl
  have hcM : pkgFileDeps true projParse pkgFs "pkg" "Missing.java" = [] :=
    pkgFileDeps_err true projParse pkgFs "pkg" "Missing.java" _ rfl
      (by rw [show ("pkg" ++ "/" ++ "Missing.java" : String) = "pkg/Missing.java"
        from rfl, hgcdM])
  have hcollect : pkgCollect true projParse pkgFs "pkg"
      ["Good.java", "Missing.java"] = ["java.util.X"] := by
    simp [pkgCollect, hcG, hcM]
  rw [hcollect]
  rfl
